import Mathlib

/-!
# go-listen: directory lifecycle and verified-sync pipeline

A shallow embedding of `main.go` (package `main` of go-listen) and the
properties of its sync pipeline.

Modelling conventions.

* A Go `string` is a `GoString`, a list of Unicode code points.  Go compares
  strings byte by byte; on valid UTF-8 text that order is the lexicographic
  order of the code points, which is the order `List Char` carries.
* `log.Fatal` ends the process: a function that may call it returns a `Proc`,
  either `Proc.fatal msg` (the process is gone) or `Proc.ret a`.
* Calls that leave the process (`os.Getenv`, `os.ReadDir`, `exec.Command`,
  `time.Now`, ...) are inputs of the model: every possible answer of the
  outside world is a possible argument.
* Library routines of the Go distribution (`fmt.Sprintf`, `strings.Split`,
  `strings.TrimSpace`, `hex.DecodeString`, `sort.Strings`, `Time.AddDate`)
  are modelled by the function they compute; `sha256.Sum256` and
  `filepath.Join` are taken as parameters.
-/

namespace GoListen

/-! ## Strings -/

/-- Go strings, as lists of code points. -/
abbrev GoString := List Char

/-- The outcome of code that may call `log.Fatal`. -/
inductive Proc (α : Type) where
  | fatal (msg : String) : Proc α
  | ret (a : α) : Proc α
  deriving DecidableEq, Repr

/-- Go `unicode.IsSpace`: the code points with the White_Space property. -/
def isSpace (c : Char) : Bool :=
  let n := c.toNat
  (9 ≤ n && n ≤ 13) || n == 32 || n == 0x85 || n == 0xA0 || n == 0x1680 ||
  (0x2000 ≤ n && n ≤ 0x200A) || n == 0x2028 || n == 0x2029 || n == 0x202F ||
  n == 0x205F || n == 0x3000

/-- Go `strings.TrimSpace`: drop leading and trailing white space. -/
def trimSpace (s : GoString) : GoString :=
  ((s.dropWhile isSpace).reverse.dropWhile isSpace).reverse

/-- Go `sort.Strings`: the ascending rearrangement of the slice.  The order on
strings is total and antisymmetric, so the sorted rearrangement is unique and
does not depend on the sorting algorithm. -/
def sortStrings (l : List GoString) : List GoString :=
  l.insertionSort (· ≤ ·)

/-- Pieces of `s` between occurrences of the one-character separator `sep`;
`cur` holds the current piece, reversed. -/
def splitAux (sep : Char) : GoString → GoString → List GoString
  | [], cur => [cur.reverse]
  | c :: cs, cur =>
    if c = sep then cur.reverse :: splitAux sep cs [] else splitAux sep cs (c :: cur)

/-- Go `strings.Split(s, sep)` for a separator of one character: the slices of
`s` between the separators, always at least one. -/
def stringsSplit (s : GoString) (sep : Char) : List GoString :=
  splitAux sep s []

/-- Value of one hexadecimal digit, as in the table of `encoding/hex`
(both letter cases are accepted). -/
def fromHexChar (c : Char) : Option Nat :=
  let n := c.toNat
  if 48 ≤ n ∧ n ≤ 57 then some (n - 48)
  else if 97 ≤ n ∧ n ≤ 102 then some (n - 97 + 10)
  else if 65 ≤ n ∧ n ≤ 70 then some (n - 65 + 10)
  else none

/-- Go `hex.DecodeString`: two digits per byte; `none` stands for the error
returned on a character that is no hexadecimal digit or on an odd length. -/
def hexDecodeString : GoString → Option (List Nat)
  | [] => some []
  | [_] => none
  | p :: q :: rest =>
    match fromHexChar p, fromHexChar q with
    | some a, some b =>
      match hexDecodeString rest with
      | some bs => some ((a * 16 + b) :: bs)
      | none => none
    | _, _ => none

/-- The lower-case hexadecimal digit of a value below 16. -/
def hexDigit (n : Nat) : Char :=
  if n < 10 then Char.ofNat (48 + n) else Char.ofNat (87 + n)

/-- Lower-case hexadecimal text of a byte string, the form in which
`sha256sum` prints a digest. -/
def hexEncode : List Nat → GoString
  | [] => []
  | b :: bs => hexDigit (b / 16) :: hexDigit (b % 16) :: hexEncode bs

/-- White space that delimits fields in the wording of the specification:
space, tab or newline. -/
def isFieldSpace (c : Char) : Bool :=
  c = ' ' || c = '\t' || c = '\n'

/-- First white-space-delimited token of a text, leading white space
ignored: the reading of the specification of `digestRemote`. -/
def firstWhitespaceToken (out : GoString) : GoString :=
  (out.dropWhile isFieldSpace).takeWhile (fun c => !isFieldSpace c)

/-! ## Dates and `getDirName` -/

/-- The calendar date of a `time.Time`: what `Year`, `Month` and `Day` return. -/
structure Date where
  year : Int
  month : Nat
  day : Nat
  deriving DecidableEq, Repr

/-- Leap years of the Gregorian calendar. -/
def isLeap (y : Int) : Bool :=
  y % 4 = 0 && (y % 100 != 0 || y % 400 = 0)

/-- Number of days of month `m` in year `y`. -/
def daysIn (y : Int) (m : Nat) : Nat :=
  if m = 2 then (if isLeap y then 29 else 28)
  else if m = 4 ∨ m = 6 ∨ m = 9 ∨ m = 11 then 30
  else 31

/-- Dates that exist in the calendar. -/
def Date.Valid (d : Date) : Prop :=
  1 ≤ d.month ∧ d.month ≤ 12 ∧ 1 ≤ d.day ∧ d.day ≤ daysIn d.year d.month

instance (d : Date) : Decidable d.Valid := by
  unfold Date.Valid; infer_instance

/-- Order of dates by their fields: year first, then month, then day. -/
def Date.fieldsBefore (a b : Date) : Prop :=
  a.year < b.year ∨ (a.year = b.year ∧
    (a.month < b.month ∨ (a.month = b.month ∧ a.day < b.day)))

instance (a b : Date) : Decidable (a.fieldsBefore b) := by
  unfold Date.fieldsBefore; infer_instance

/-- Days in the months of year `y` before month `m`. -/
def daysBeforeMonth (y : Int) : Nat → Nat
  | 0 => 0
  | 1 => 0
  | m + 2 => daysBeforeMonth y (m + 1) + daysIn y (m + 1)

/-- Number of leap years from year 0 up to, not including, year `y`. -/
def leapsBefore (y : Int) : Int :=
  (y + 3) / 4 - (y + 99) / 100 + (y + 399) / 400

/-- Running count of days of the calendar: the days of the years before
`d.year`, of the months before `d.month`, and the day of the month. -/
def Date.dayNumber (d : Date) : Int :=
  365 * d.year + leapsBefore d.year + daysBeforeMonth d.year d.month + d.day

/-- Chronological order of calendar dates: an earlier day has a smaller day
count. -/
def Date.earlier (a b : Date) : Prop :=
  a.dayNumber < b.dayNumber

instance (a b : Date) : Decidable (a.earlier b) := by
  unfold Date.earlier; infer_instance

/-- The day after `d`: `d.AddDate(0, 0, 1)` on a calendar date. -/
def Date.nextDay (d : Date) : Date :=
  if d.day + 1 ≤ daysIn d.year d.month then { d with day := d.day + 1 }
  else if d.month < 12 then { d with month := d.month + 1, day := 1 }
  else { year := d.year + 1, month := 1, day := 1 }

/-- Go `t.AddDate(0, 0, days)` for a count of days that is not negative. -/
def Date.addDate (d : Date) : Nat → Date
  | 0 => d
  | n + 1 => (d.nextDay).addDate n

/-- Left padding with the digit zero up to `width` characters. -/
def padZeros (width : Nat) (digits : GoString) : GoString :=
  List.replicate (width - digits.length) '0' ++ digits

/-- Go `fmt.Sprintf` with the verb `%0<width>d`: decimal digits, padded with
zeros on the left up to the width (a minus sign counts in the width); longer
numbers are not cut. -/
def sprintfZeroPad (width : Nat) (n : Int) : GoString :=
  if n < 0 then '-' :: padZeros (width - 1) (Nat.toDigits 10 n.natAbs)
  else padZeros width (Nat.toDigits 10 n.toNat)

/-- The last `w` decimal digits of `n`, most significant first: the text of
`n` in a field of exactly `w` digits, zero-padded. -/
def fixedDigits : Nat → Nat → GoString
  | 0, _ => []
  | w + 1, n => fixedDigits w (n / 10) ++ [Nat.digitChar (n % 10)]

/-- The number whose eight decimal digits are the directory name. -/
def Date.ordinal8 (d : Date) : Nat :=
  d.year.toNat * 10000 + (d.month * 100 + d.day)

/-- Source `getDirName`: `fmt.Sprintf("%04d%02d%02d", t.Year(), t.Month(), t.Day())`. -/
def getDirName (t : Date) : GoString :=
  sprintfZeroPad 4 t.year ++ sprintfZeroPad 2 t.month ++ sprintfZeroPad 2 t.day

/-- Lines 94-97 of the source: the names `dayDir`, `nextDayDir` and
`nextToNextDayDir` that `createNewDirForUpcomingDays` computes from
`time.Now()`: today, the next day and the day after. -/
def upcomingDirNames (now : Date) : GoString × GoString × GoString :=
  (getDirName now, getDirName (now.addDate 1), getDirName (now.addDate 2))

/-- Source `createNewDirForUpcomingDays`: the three directories are created
under `rootDir` in turn; `mkdirAll` tells whether `os.MkdirAll` succeeds on a
path, and the first failure is fatal. -/
def createNewDirForUpcomingDays (mkdirAll : GoString → Bool)
    (join : List GoString → GoString) (rootDir : GoString) (now : Date) : Proc Unit :=
  if mkdirAll (join [rootDir, (upcomingDirNames now).1]) = false then
    Proc.fatal "unable to create directory: "
  else if mkdirAll (join [rootDir, (upcomingDirNames now).2.1]) = false then
    Proc.fatal "unable to create directory: "
  else if mkdirAll (join [rootDir, (upcomingDirNames now).2.2]) = false then
    Proc.fatal "unable to create directory: "
  else Proc.ret ()

/-! ## Start-up -/

/-- The package-level variables set by `init`. -/
structure Config where
  rootDir : GoString
  remoteHostName : GoString
  remoteDirPath : GoString
  deriving DecidableEq, Repr

/-- Go `os.Getenv`: the value of the variable, empty when it is not set. -/
def getenv (env : GoString → Option GoString) (key : GoString) : GoString :=
  (env key).getD []

/-- Source `init`: reads the three settings; every guard tests `rootDir`. -/
def init (env : GoString → Option GoString) : Proc Config :=
  let rootDir := getenv env "LOCAL_DIR".toList
  if trimSpace rootDir = [] then Proc.fatal "No LOCAL_DIR set"
  else
    let remoteHostName := getenv env "REMOTE_HOST".toList
    if trimSpace rootDir = [] then Proc.fatal "No REMOTE_HOST set"
    else
      let remoteDirPath := getenv env "REMOTE_HOST_DIR".toList
      if trimSpace rootDir = [] then Proc.fatal "No REMOTE_HOST_DIR set"
      else Proc.ret ⟨rootDir, remoteHostName, remoteDirPath⟩

/-! ## Remote commands and folder verification -/

/-- The classes of error of a command that the source tells apart with
`errors.As`: the command ran and exited non-zero (`*exec.ExitError`), an
`*os.PathError`, or any other failure to run it. -/
inductive ExecErr where
  | exitError (code : Int) : ExecErr
  | pathError : ExecErr
  | other : ExecErr
  deriving DecidableEq, Repr

/-- The outside world as one call of `verifyFilesWithDestination` sees it.
`exec name args` is the result of `exec.Command(name, args...)` (standard
output, or the error of `Run`/`Output`); `readDir`, `openFile` and `readAll`
are `os.ReadDir`, `os.Open` and `io.ReadAll` on a path (`none`/`false` for an
error); `join` is `filepath.Join` and `sha256` is `sha256.Sum256`. -/
structure World where
  exec : GoString → List GoString → Except ExecErr GoString
  readDir : GoString → Option (List GoString)
  openFile : GoString → Bool
  readAll : GoString → Option (List Nat)
  join : List GoString → GoString
  sha256 : List Nat → List Nat

/-- Source `runCmdOnRemote`: runs `ssh <host> <cmd...>`; an exit error or a
path error is returned to the caller, any other error is fatal.  The result
is the pair `(output, err)` of the Go function. -/
def runCmdOnRemote (cfg : Config) (w : World) (cmdWithParams : List GoString) :
    Proc (GoString × Option ExecErr) :=
  let finalCmdParams := cfg.remoteHostName :: cmdWithParams
  match w.exec "ssh".toList finalCmdParams with
  | Except.error (ExecErr.exitError c) => Proc.ret ([], some (ExecErr.exitError c))
  | Except.error ExecErr.pathError => Proc.ret ([], some ExecErr.pathError)
  | Except.error ExecErr.other =>
    Proc.fatal "unable to run folder exists check command on remote: "
  | Except.ok stdOut => Proc.ret (stdOut, none)

/-- Lines 299-301 of the source: `strings.Split(out, " ")[0]`, then
`hex.DecodeString`. -/
def decodeRemoteDigest (out : GoString) : Option (List Nat) :=
  hexDecodeString ((stringsSplit out ' ').headD [])

/-- The `for _, fName := range fileNames` loop of
`verifyFilesWithDestination`. -/
def verifyFiles (cfg : Config) (w : World) (folderName : GoString) :
    List GoString → Proc Bool
  | [] => Proc.ret true
  | fName :: rest =>
    let path := w.join [cfg.rootDir, folderName, fName]
    if w.openFile path = false then Proc.fatal "unable to read file in directory: "
    else
      match w.readAll path with
      | none => Proc.fatal "unable to read content in file: "
      | some content =>
        let srcFileSHA := w.sha256 content
        let remoteFolderPath := w.join [cfg.remoteDirPath, folderName, fName]
        match runCmdOnRemote cfg w ["sha256sum".toList, remoteFolderPath] with
        | Proc.fatal m => Proc.fatal m
        | Proc.ret (_, some _) =>
          Proc.fatal "unable to run sha256 command on remote file: "
        | Proc.ret (out, none) =>
          match decodeRemoteDigest out with
          | none => Proc.fatal "unable to decode hex encoded sha256 of remote file: "
          | some sha256Bytes =>
            if srcFileSHA = sha256Bytes then verifyFiles cfg w folderName rest
            else Proc.ret false

/-- Source `verifyFilesWithDestination`. -/
def verifyFilesWithDestination (cfg : Config) (w : World) (folderName : GoString) :
    Proc Bool :=
  let remoteFolderPath := w.join [cfg.remoteDirPath, folderName]
  match w.exec "ssh".toList [cfg.remoteHostName, "ls".toList, remoteFolderPath] with
  | Except.error (ExecErr.exitError _) => Proc.ret false
  | Except.error ExecErr.pathError => Proc.ret false
  | Except.error ExecErr.other =>
    Proc.fatal "unable to run folder exists check command on remote: "
  | Except.ok _ =>
    match w.readDir (w.join [cfg.rootDir, folderName]) with
    | none => Proc.fatal "unable to read root directory: "
    | some files => verifyFiles cfg w folderName (sortStrings files)

/-! ## The poll cycle -/

/-- The calls a poll cycle makes, in the order it makes them, each with its
outcome: `verifyFilesWithDestination` (before or after the copy), the `scp`
command (`ok` when `err == nil`) and `os.RemoveAll` (`ok` when `err == nil`). -/
inductive Event where
  | verify (folderName : GoString) (afterCopy : Bool) (result : Proc Bool) : Event
  | scp (folderName : GoString) (ok : Bool) : Event
  | removeAll (folderName : GoString) (ok : Bool) : Event
  deriving DecidableEq, Repr

/-- The folder a call is about. -/
def Event.folder : Event → GoString
  | Event.verify f _ _ => f
  | Event.scp f _ => f
  | Event.removeAll f _ => f

/-- Arbitrary outcomes of the three steps of a cycle: each may depend on
everything that happened in the cycle so far and on the folder. -/
structure Outcomes where
  verify : List Event → GoString → Proc Bool
  scp : List Event → GoString → Bool
  removeAll : List Event → GoString → Bool

/-- How a pass of the loop ends: at `time.Sleep`, or in `log.Fatal`. -/
inductive Status where
  | sleeping : Status
  | terminated (msg : String) : Status
  deriving DecidableEq, Repr

/-- Lines 197-229 of the source: the loop body for one folder that passed the
date guard.  `tr` is the trace so far; the result is the extended trace and
`some msg` when the body ended in `log.Fatal`. -/
def syncFolder (o : Outcomes) (tr : List Event) (folderName : GoString) :
    List Event × Option String :=
  let first := o.verify tr folderName
  let tr1 := tr ++ [Event.verify folderName false first]
  match first with
  | Proc.fatal m => (tr1, some m)
  | Proc.ret verify =>
    -- `if !verify`: scp, then verify again
    let copied : List Event × Proc Bool :=
      if verify = false then
        let ok := o.scp tr1 folderName
        let tr2 := tr1 ++ [Event.scp folderName ok]
        if ok = false then (tr2, Proc.fatal "unable to copy folder to remote using scp: ")
        else
          let second := o.verify tr2 folderName
          (tr2 ++ [Event.verify folderName true second], second)
      else (tr1, Proc.ret verify)
    match copied with
    | (tr3, Proc.fatal m) => (tr3, some m)
    | (tr3, Proc.ret verify) =>
      -- `if verify`: delete source files; an error of the delete is only logged
      if verify = true then
        (tr3 ++ [Event.removeAll folderName (o.removeAll tr3 folderName)], none)
      else (tr3, none)

/-- The `for _, folderName := range folderNames` loop (lines 190-230), from
trace `tr` on: `break` at the first name that is not below `dayDirName`. -/
def syncFolders (o : Outcomes) (dayDirName : GoString) :
    List GoString → List Event → List Event × Status
  | [], tr => (tr, Status.sleeping)
  | folderName :: rest, tr =>
    if folderName ≥ dayDirName then (tr, Status.sleeping)
    else
      match syncFolder o tr folderName with
      | (tr1, some m) => (tr1, Status.terminated m)
      | (tr1, none) => syncFolders o dayDirName rest tr1

/-- One pass of the `for` loop of `listAndCopyOldDirectories` after the
directory listing and the clock have been read (lines 181-230): sort the
names, then process them.  The result is the trace of the calls made and the
way the pass ended. -/
def pollCycle (o : Outcomes) (folders : List GoString) (dayDirName : GoString) :
    List Event × Status :=
  syncFolders o dayDirName (sortStrings folders) []

/-- Source `listAndCopyOldDirectories`, one pass of its endless loop:
`readDir` is the answer of `os.ReadDir(rootDir)` (`none` for an error) and
`now` the date of `time.Now()`. -/
def listAndCopyOldDirectories (o : Outcomes) (readDir : Option (List GoString))
    (now : Date) : List Event × Status :=
  match readDir with
  | none => ([], Status.terminated "unable to read root directory: ")
  | some folders => pollCycle o folders (getDirName now)

/-- The folders on which the verification before the copy was started, in
the order of the calls. -/
def preVerified (tr : List Event) : List GoString :=
  tr.filterMap (fun e =>
    match e with
    | Event.verify f false _ => some f
    | _ => none)

/-! ## Shapes of a trace -/

/-- The calls the loop body can make for one folder, with the message of the
fatal error when it ends in one: the six ways through lines 197-229. -/
inductive Block (f : GoString) : List Event → Option String → Prop where
  | preFatal (m : String) :
    Block f [Event.verify f false (Proc.fatal m)] (some m)
  | preVerified (b : Bool) :
    Block f [Event.verify f false (Proc.ret true), Event.removeAll f b] none
  | copyFailed :
    Block f [Event.verify f false (Proc.ret false), Event.scp f false]
      (some "unable to copy folder to remote using scp: ")
  | postFatal (m : String) :
    Block f [Event.verify f false (Proc.ret false), Event.scp f true,
      Event.verify f true (Proc.fatal m)] (some m)
  | postVerified (b : Bool) :
    Block f [Event.verify f false (Proc.ret false), Event.scp f true,
      Event.verify f true (Proc.ret true), Event.removeAll f b] none
  | retained :
    Block f [Event.verify f false (Proc.ret false), Event.scp f true,
      Event.verify f true (Proc.ret false)] none

/-- Which call may directly follow which in a trace. -/
def Adjacent : Event → Event → Prop
  | Event.verify f false (Proc.ret true), Event.removeAll g _ => f = g
  | Event.verify f false (Proc.ret false), Event.scp g _ => f = g
  | Event.scp f true, Event.verify g true _ => f = g
  | Event.verify f true (Proc.ret true), Event.removeAll g _ => f = g
  | Event.verify _ true (Proc.ret false), Event.verify _ false _ => True
  | Event.removeAll _ _, Event.verify _ false _ => True
  | _, _ => False

/-- Calls after which the loop goes on to the next folder. -/
def Resumes : Event → Prop
  | Event.removeAll _ _ => True
  | Event.verify _ true (Proc.ret false) => True
  | _ => False

/-- Calls after which a pass can be over: those that need no successor. -/
def Final : Event → Prop
  | Event.removeAll _ _ => True
  | Event.verify _ true (Proc.ret false) => True
  | Event.verify _ _ (Proc.fatal _) => True
  | Event.scp _ false => True
  | _ => False

/-- Calls that start the work on a folder: the verification before the copy. -/
def Opens : Event → Prop
  | Event.verify _ false _ => True
  | _ => False

/-- The traces a pass can leave: consecutive calls are `Adjacent`, the first
call opens a folder and the last call is `Final`. -/
def WellFormed (tr : List Event) : Prop :=
  List.Chain' Adjacent tr ∧ (∀ e ∈ tr.head?, Opens e) ∧ (∀ e ∈ tr.getLast?, Final e)

/-- The `scp` calls for folder `f`. -/
def isScpOf (f : GoString) : Event → Bool
  | Event.scp g _ => decide (g = f)
  | _ => false

/-- The calls of `verifyFilesWithDestination` for folder `f` after the copy. -/
def isPostVerifyOf (f : GoString) : Event → Bool
  | Event.verify g true _ => decide (g = f)
  | _ => false

/-- The `os.RemoveAll` calls for folder `f`. -/
def isRemoveOf (f : GoString) : Event → Bool
  | Event.removeAll g _ => decide (g = f)
  | _ => false

/-- What a pass of the loop over the sorted names `rest` can do, whatever the
outcomes of the calls: the calls made and the way the pass ends. -/
inductive Run (dayDirName : GoString) : List GoString → List Event → Status → Prop where
  | done : Run dayDirName [] [] Status.sleeping
  | stop (f : GoString) (rest : List GoString) (h : f ≥ dayDirName) :
    Run dayDirName (f :: rest) [] Status.sleeping
  | abort (f : GoString) (rest : List GoString) (blk : List Event) (m : String)
    (h : f < dayDirName) (hb : Block f blk (some m)) :
    Run dayDirName (f :: rest) blk (Status.terminated m)
  | step (f : GoString) (rest : List GoString) (blk blks : List Event) (st : Status)
    (h : f < dayDirName) (hb : Block f blk none) (hr : Run dayDirName rest blks st) :
    Run dayDirName (f :: rest) (blk ++ blks) st

/-! ## Sample environments -/

/-- An environment in which only `LOCAL_DIR` is set. -/
def onlyLocalDir (key : GoString) : Option GoString :=
  if key = "LOCAL_DIR".toList then some "rec".toList else none

/-- A configuration as `init` leaves it when all three settings are given. -/
def sampleConfig : Config where
  rootDir := "rec".toList
  remoteHostName := "rasp-pi".toList
  remoteDirPath := "/srv/rec".toList

/-- Joining clean path elements with a slash, as `filepath.Join` does on them. -/
def joinSlash (elems : List GoString) : GoString :=
  List.intercalate ['/'] elems

/-- A stand-in for the digest function in the sample worlds. -/
def sampleDigest (content : List Nat) : List Nat :=
  [content.sum % 256, content.length % 256]

/-- A world in which the remote folder `20240601` exists but is empty: `ls`
on it exits with zero, every other remote command exits with status one.
Locally the folder holds the one file `10-00-00.mp3`. -/
def partialRemote : World where
  exec := fun _ args =>
    if args = ["rasp-pi".toList, "ls".toList, "/srv/rec/20240601".toList] then Except.ok []
    else Except.error (ExecErr.exitError 1)
  readDir := fun _ => some ["10-00-00.mp3".toList]
  openFile := fun _ => true
  readAll := fun _ => some [1, 2, 3]
  join := joinSlash
  sha256 := sampleDigest

/-- A world in which the remote folder holds a faithful copy of the one local
file: `sha256sum` prints the digest of the local content, two spaces, the
path and a newline. -/
def syncedRemote : World where
  exec := fun _ args =>
    if args = ["rasp-pi".toList, "ls".toList, "/srv/rec/20240601".toList] then
      Except.ok "10-00-00.mp3\n".toList
    else if args = ["rasp-pi".toList, "sha256sum".toList,
        "/srv/rec/20240601/10-00-00.mp3".toList] then
      Except.ok (hexEncode (sampleDigest [1, 2, 3]) ++
        "  /srv/rec/20240601/10-00-00.mp3\n".toList)
    else Except.error (ExecErr.exitError 1)
  readDir := fun _ => some ["10-00-00.mp3".toList]
  openFile := fun _ => true
  readAll := fun _ => some [1, 2, 3]
  join := joinSlash
  sha256 := sampleDigest

/-- The outcomes of a cycle in a world that does not change during the
cycle: verification is `verifyFilesWithDestination` in that world. -/
def staticOutcomes (cfg : Config) (w : World) : Outcomes where
  verify := fun _ f => verifyFilesWithDestination cfg w f
  scp := fun _ _ => true
  removeAll := fun _ _ => true

/-! ## Sample outcomes -/

/-- Every verification succeeds at once; copies and deletes succeed. -/
def allVerified : Outcomes where
  verify := fun _ _ => Proc.ret true
  scp := fun _ _ => true
  removeAll := fun _ _ => true

/-- Nothing is on the remote host and every `scp` exits non-zero. -/
def copyFails : Outcomes where
  verify := fun _ _ => Proc.ret false
  scp := fun _ _ => false
  removeAll := fun _ _ => true

/-- A folder verifies once it has been copied in this cycle, not before. -/
def copyRepairs : Outcomes where
  verify := fun tr f => Proc.ret (decide (Event.scp f true ∈ tr))
  scp := fun _ _ => true
  removeAll := fun _ _ => true

/-! ## Lemmas on the loop body -/

theorem syncFolder_block (o : Outcomes) (tr : List Event) (f : GoString) :
    ∃ blk st, Block f blk st ∧ syncFolder o tr f = (tr ++ blk, st) := by
  unfold syncFolder
  rcases h1 : o.verify tr f with m | v
  · exact ⟨_, _, Block.preFatal m, by simp⟩
  · cases v
    · simp only [if_true]
      cases h2 : o.scp (tr ++ [Event.verify f false (Proc.ret false)]) f
      · exact ⟨_, _, Block.copyFailed, by simp⟩
      · simp only [Bool.true_eq_false, if_false]
        rcases h3 : o.verify (tr ++ [Event.verify f false (Proc.ret false)] ++
            [Event.scp f true]) f with m | v2
        · exact ⟨_, _, Block.postFatal m, by simp⟩
        · cases v2
          · exact ⟨_, _, Block.retained, by simp⟩
          · exact ⟨_, _, Block.postVerified (o.removeAll (tr ++ [Event.verify f false
              (Proc.ret false), Event.scp f true, Event.verify f true (Proc.ret true)]) f),
              by simp⟩
    · exact ⟨_, _, Block.preVerified (o.removeAll (tr ++ [Event.verify f false
        (Proc.ret true)]) f), by simp⟩

theorem syncFolders_run (o : Outcomes) (dayDirName : GoString) (rest : List GoString) :
    ∀ tr : List Event, ∃ blks, Run dayDirName rest blks (syncFolders o dayDirName rest tr).2 ∧
      (syncFolders o dayDirName rest tr).1 = tr ++ blks := by
  induction rest with
  | nil => intro tr; exact ⟨[], Run.done, by simp [syncFolders]⟩
  | cons f rest ih =>
    intro tr
    by_cases h : f ≥ dayDirName
    · refine ⟨[], ?_, ?_⟩
      · simp only [syncFolders, if_pos h]; exact Run.stop f rest h
      · simp only [syncFolders, if_pos h, List.append_nil]
    · obtain ⟨blk, st, hb, he⟩ := syncFolder_block o tr f
      have hlt : f < dayDirName := not_le.mp h
      cases st with
      | some m =>
        refine ⟨blk, ?_, ?_⟩
        · simp only [syncFolders, if_neg h, he]; exact Run.abort f rest blk m hlt hb
        · simp only [syncFolders, if_neg h, he]
      | none =>
        obtain ⟨blks, hr, hr2⟩ := ih (tr ++ blk)
        refine ⟨blk ++ blks, ?_, ?_⟩
        · simp only [syncFolders, if_neg h, he]; exact Run.step f rest blk blks _ hlt hb hr
        · simp only [syncFolders, if_neg h, he, hr2, List.append_assoc]

theorem pollCycle_run (o : Outcomes) (folders : List GoString) (dayDirName : GoString) :
    Run dayDirName (sortStrings folders) (pollCycle o folders dayDirName).1
      (pollCycle o folders dayDirName).2 := by
  obtain ⟨blks, hr, he⟩ := syncFolders_run o dayDirName (sortStrings folders) []
  unfold pollCycle
  rw [he, List.nil_append]
  exact hr

theorem Block.ne_nil {f : GoString} {blk : List Event} {st : Option String}
    (h : Block f blk st) : blk ≠ [] := by
  cases h <;> simp

theorem Block.chain {f : GoString} {blk : List Event} {st : Option String}
    (h : Block f blk st) : List.Chain' Adjacent blk := by
  cases h <;> simp [Adjacent]

theorem Block.head_opens {f : GoString} {blk : List Event} {st : Option String}
    (h : Block f blk st) : ∀ e ∈ blk.head?, Opens e := by
  cases h <;> simp [Opens]

theorem Block.last_final {f : GoString} {blk : List Event} {st : Option String}
    (h : Block f blk st) : ∀ e ∈ blk.getLast?, Final e ∧ (st = none → Resumes e) := by
  cases h <;> simp [Final, Resumes]

theorem Block.folder_eq {f : GoString} {blk : List Event} {st : Option String}
    (h : Block f blk st) : ∀ e ∈ blk, e.folder = f := by
  cases h <;> simp [Event.folder]

theorem preVerified_block {f : GoString} {blk : List Event} {st : Option String}
    (h : Block f blk st) : preVerified blk = [f] := by
  cases h <;> simp [preVerified]

theorem adjacent_of_resumes_opens {a b : Event} (ha : Resumes a) (hb : Opens b) :
    Adjacent a b := by
  cases a with
  | verify f ac r =>
    cases b with
    | verify g ac2 r2 =>
      cases ac <;> cases ac2 <;> cases r <;> simp_all [Resumes, Opens, Adjacent]
      all_goals (rename_i v; cases v <;> simp_all [Resumes, Adjacent])
    | scp g ok => simp [Opens] at hb
    | removeAll g ok => simp [Opens] at hb
  | scp f ok => simp [Resumes] at ha
  | removeAll f ok =>
    cases b with
    | verify g ac2 r2 => cases ac2 <;> simp_all [Opens, Adjacent]
    | scp g ok => simp [Opens] at hb
    | removeAll g ok => simp [Opens] at hb

theorem final_of_resumes {a : Event} (ha : Resumes a) : Final a := by
  cases a with
  | verify f ac r =>
    cases ac <;> cases r <;> simp_all [Resumes, Final]
    all_goals (rename_i v; cases v <;> simp_all [Resumes, Final])
  | scp f ok => simp [Resumes] at ha
  | removeAll f ok => simp [Final]

/-! ## Lemmas on a pass of the loop -/

theorem run_wellFormed {d : GoString} {rest : List GoString} {blks : List Event}
    {st : Status} (h : Run d rest blks st) : WellFormed blks := by
  induction h with
  | done => simp [WellFormed]
  | stop f rest h => simp [WellFormed]
  | abort f rest blk m h hb =>
    exact ⟨hb.chain, hb.head_opens, fun e he => (hb.last_final e he).1⟩
  | step f rest blk blks st h hb hr ih =>
    obtain ⟨ihc, ihh, ihl⟩ := ih
    refine ⟨?_, ?_, ?_⟩
    · refine List.Chain'.append hb.chain ihc ?_
      intro x hx y hy
      exact adjacent_of_resumes_opens ((hb.last_final x hx).2 rfl) (ihh y hy)
    · intro e he
      rw [List.head?_append_of_ne_nil _ hb.ne_nil] at he
      exact hb.head_opens e he
    · intro e he
      rw [List.getLast?_append] at he
      cases hl : blks.getLast? with
      | none =>
        rw [hl] at he
        have he2 : e ∈ blk.getLast? := by simpa using he
        exact (hb.last_final e he2).1
      | some x =>
        rw [hl] at he
        have he2 : x = e := by simpa using he
        subst he2
        exact ihl x hl

theorem run_folder {d : GoString} {rest : List GoString} {blks : List Event}
    {st : Status} (h : Run d rest blks st) :
    ∀ e ∈ blks, e.folder < d ∧ e.folder ∈ rest := by
  induction h with
  | done => simp
  | stop f rest h => simp
  | abort f rest blk m h hb =>
    intro e he
    rw [hb.folder_eq e he]
    exact ⟨h, List.mem_cons_self _ _⟩
  | step f rest blk blks st h hb hr ih =>
    intro e he
    rcases List.mem_append.mp he with he | he
    · rw [hb.folder_eq e he]
      exact ⟨h, List.mem_cons_self _ _⟩
    · exact ⟨(ih e he).1, List.mem_cons_of_mem _ (ih e he).2⟩

theorem preVerified_append (a b : List Event) :
    preVerified (a ++ b) = preVerified a ++ preVerified b := by
  simp [preVerified, List.filterMap_append]

theorem run_preVerified_sleeping {d : GoString} {rest : List GoString} {blks : List Event}
    {st : Status} (h : Run d rest blks st) (hs : st = Status.sleeping) :
    preVerified blks = rest.takeWhile (fun f => decide (f < d)) := by
  induction h with
  | done => simp [preVerified]
  | stop f rest h =>
    have : ¬ f < d := not_lt.mpr h
    simp [preVerified, List.takeWhile, this]
  | abort f rest blk m h hb => simp at hs
  | step f rest blk blks st h hb hr ih =>
    rw [preVerified_append, preVerified_block hb, ih hs]
    simp [List.takeWhile, h]

theorem run_preVerified_take {d : GoString} {rest : List GoString} {blks : List Event}
    {st : Status} (h : Run d rest blks st) :
    ∃ k, preVerified blks = (rest.takeWhile (fun f => decide (f < d))).take k := by
  induction h with
  | done => exact ⟨0, by simp [preVerified]⟩
  | stop f rest h => exact ⟨0, by simp [preVerified]⟩
  | abort f rest blk m h hb =>
    exact ⟨1, by rw [preVerified_block hb]; simp [List.takeWhile, h]⟩
  | step f rest blk blks st h hb hr ih =>
    obtain ⟨k, hk⟩ := ih
    exact ⟨k + 1, by rw [preVerified_append, preVerified_block hb, hk]; simp [List.takeWhile, h]⟩

/-! ## Reading a well-formed trace -/

theorem wellFormed_before {tr pre post : List Event} {e : Event} (h : WellFormed tr)
    (ht : tr = pre ++ e :: post) (he : ¬ Opens e) :
    ∃ pre1 x, pre = pre1 ++ [x] ∧ Adjacent x e := by
  subst ht
  rcases List.eq_nil_or_concat pre with hp | ⟨pre1, x, hp⟩
  · subst hp
    exact absurd (h.2.1 e (by simp)) he
  · rw [List.concat_eq_append] at hp
    subst hp
    refine ⟨pre1, x, rfl, ?_⟩
    have hc := h.1
    rw [List.append_assoc, List.singleton_append, List.chain'_append_cons_cons] at hc
    exact hc.2.1

theorem wellFormed_after {tr pre post : List Event} {e : Event} (h : WellFormed tr)
    (ht : tr = pre ++ e :: post) (he : ¬ Final e) :
    ∃ y post1, post = y :: post1 ∧ Adjacent e y := by
  subst ht
  cases post with
  | nil => exact absurd (h.2.2 e (by simp)) he
  | cons y post1 =>
    refine ⟨y, post1, rfl, ?_⟩
    have hc := h.1
    rw [List.chain'_append_cons_cons] at hc
    exact hc.2.1

theorem adjacent_removeAll {x : Event} {f : GoString} {b : Bool}
    (h : Adjacent x (Event.removeAll f b)) :
    ∃ ac, x = Event.verify f ac (Proc.ret true) := by
  cases x with
  | verify g ac r =>
    cases r with
    | fatal m => cases ac <;> simp [Adjacent] at h
    | ret v =>
      cases ac <;> cases v <;> simp [Adjacent] at h
      · exact ⟨false, by rw [h]⟩
      · exact ⟨true, by rw [h]⟩
  | scp g ok => cases ok <;> simp [Adjacent] at h
  | removeAll g ok => simp [Adjacent] at h

theorem adjacent_scp {x : Event} {f : GoString} {ok : Bool}
    (h : Adjacent x (Event.scp f ok)) : x = Event.verify f false (Proc.ret false) := by
  cases x with
  | verify g ac r =>
    cases r with
    | fatal m => cases ac <;> simp [Adjacent] at h
    | ret v =>
      cases ac <;> cases v <;> simp [Adjacent] at h
      rw [h]
  | scp g ok2 => cases ok2 <;> simp [Adjacent] at h
  | removeAll g ok2 => simp [Adjacent] at h

theorem adjacent_after_scp {y : Event} {f : GoString}
    (h : Adjacent (Event.scp f true) y) : ∃ r, y = Event.verify f true r := by
  cases y with
  | verify g ac r =>
    cases ac <;> simp [Adjacent] at h
    exact ⟨r, by rw [h]⟩
  | scp g ok2 => simp [Adjacent] at h
  | removeAll g ok2 => simp [Adjacent] at h

theorem adjacent_after_preVerified {y : Event} {f : GoString}
    (h : Adjacent (Event.verify f false (Proc.ret true)) y) :
    ∃ b, y = Event.removeAll f b := by
  cases y with
  | verify g ac r => simp [Adjacent] at h
  | scp g ok2 => simp [Adjacent] at h
  | removeAll g ok2 =>
    simp [Adjacent] at h
    exact ⟨ok2, by rw [h]⟩

theorem adjacent_after_preUnverified {y : Event} {f : GoString}
    (h : Adjacent (Event.verify f false (Proc.ret false)) y) :
    ∃ ok, y = Event.scp f ok := by
  cases y with
  | verify g ac r => simp [Adjacent] at h
  | scp g ok2 =>
    simp [Adjacent] at h
    exact ⟨ok2, by rw [h]⟩
  | removeAll g ok2 => simp [Adjacent] at h

/-! ## Counting the calls for one folder -/

theorem run_countP_le_one (p : Event → Bool) (f : GoString)
    (hp : ∀ e, p e = true → e.folder = f)
    (hb : ∀ g blk st, Block g blk st → blk.countP p ≤ 1)
    {d : GoString} {rest : List GoString} {blks : List Event} {st : Status}
    (h : Run d rest blks st) (hn : rest.Nodup) : blks.countP p ≤ 1 := by
  induction h with
  | done => simp
  | stop g rest h => simp
  | abort g rest blk m h hblk => exact hb g blk _ hblk
  | step g rest blk blks st h hblk hr ih =>
    rw [List.countP_append]
    have hn2 := List.nodup_cons.mp hn
    by_cases hg : g = f
    · have h0 : blks.countP p = 0 := by
        rw [List.countP_eq_zero]
        intro e he hpe
        have h1 := (run_folder hr e he).2
        rw [hp e hpe, ← hg] at h1
        exact hn2.1 h1
      rw [h0]
      exact hb g blk _ hblk
    · have h0 : blk.countP p = 0 := by
        rw [List.countP_eq_zero]
        intro e he hpe
        have h1 := hblk.folder_eq e he
        rw [hp e hpe] at h1
        exact hg h1.symm
      rw [h0, Nat.zero_add]
      exact ih hn2.2

theorem isScpOf_folder (f : GoString) (e : Event) (h : isScpOf f e = true) :
    e.folder = f := by
  cases e <;> simp_all [isScpOf, Event.folder]

theorem isPostVerifyOf_folder (f : GoString) (e : Event) (h : isPostVerifyOf f e = true) :
    e.folder = f := by
  cases e with
  | verify g ac r => cases ac <;> simp_all [isPostVerifyOf, Event.folder]
  | scp g ok => simp [isPostVerifyOf] at h
  | removeAll g ok => simp [isPostVerifyOf] at h

theorem isRemoveOf_folder (f : GoString) (e : Event) (h : isRemoveOf f e = true) :
    e.folder = f := by
  cases e <;> simp_all [isRemoveOf, Event.folder]

theorem block_countP_scp (f g : GoString) (blk : List Event) (st : Option String)
    (h : Block g blk st) : blk.countP (isScpOf f) ≤ 1 := by
  cases h <;> simp [List.countP_cons, isScpOf] <;> split <;> simp

theorem block_countP_postVerify (f g : GoString) (blk : List Event) (st : Option String)
    (h : Block g blk st) : blk.countP (isPostVerifyOf f) ≤ 1 := by
  cases h <;> simp [List.countP_cons, isPostVerifyOf] <;> split <;> simp

theorem countP_eq_zero_of_folder_ne {p : Event → Bool} {f g : GoString}
    (hp : ∀ e, p e = true → e.folder = f) {blk : List Event}
    (hblk : ∀ e ∈ blk, e.folder = g) (hg : g ≠ f) : blk.countP p = 0 := by
  rw [List.countP_eq_zero]
  intro e he hpe
  have h1 := hblk e he
  rw [hp e hpe] at h1
  exact hg h1.symm

theorem run_countP_eq_zero_of_not_mem {p : Event → Bool} {f : GoString}
    (hp : ∀ e, p e = true → e.folder = f)
    {d : GoString} {rest : List GoString} {blks : List Event} {st : Status}
    (h : Run d rest blks st) (hf : f ∉ rest) : blks.countP p = 0 := by
  rw [List.countP_eq_zero]
  intro e he hpe
  have h1 := (run_folder h e he).2
  rw [hp e hpe] at h1
  exact hf h1

theorem run_preVerified_no_scp {d : GoString} {rest : List GoString} {blks : List Event}
    {st : Status} (h : Run d rest blks st) (hn : rest.Nodup) (f : GoString)
    (hm : Event.verify f false (Proc.ret true) ∈ blks) : blks.countP (isScpOf f) = 0 := by
  induction h with
  | done => simp
  | stop g rest h => simp
  | abort g rest blk m h hblk => cases hblk <;> simp at hm
  | step g rest blk blks st h hblk hr ih =>
    rw [List.countP_append]
    have hn2 := List.nodup_cons.mp hn
    rcases List.mem_append.mp hm with hm | hm
    · have hg : g = f := by
        have := hblk.folder_eq _ hm
        simpa [Event.folder] using this.symm
      subst hg
      rw [run_countP_eq_zero_of_not_mem (isScpOf_folder g) hr hn2.1]
      cases hblk <;> simp at hm
      simp [isScpOf]
    · have hfr : f ∈ rest := by
        have := (run_folder hr _ hm).2
        simpa [Event.folder] using this
      have hg : g ≠ f := fun e => hn2.1 (e ▸ hfr)
      rw [countP_eq_zero_of_folder_ne (isScpOf_folder f) hblk.folder_eq hg, ih hn2.2 hm]

theorem run_copyFailed {d : GoString} {rest : List GoString} {blks : List Event}
    {st : Status} (h : Run d rest blks st) (f : GoString)
    (hm : Event.scp f false ∈ blks) :
    st = Status.terminated "unable to copy folder to remote using scp: " ∧
      blks.getLast? = some (Event.scp f false) ∧
      (rest.Nodup → blks.countP (isRemoveOf f) = 0) := by
  induction h with
  | done => simp at hm
  | stop g rest h => simp at hm
  | abort g rest blk m h hblk =>
    cases hblk <;> simp at hm
    subst hm
    simp [isRemoveOf]
  | step g rest blk blks st h hblk hr ih =>
    have hm2 : Event.scp f false ∈ blks := by
      rcases List.mem_append.mp hm with hm | hm
      · cases hblk <;> simp at hm
      · exact hm
    obtain ⟨h1, h2, h3⟩ := ih hm2
    refine ⟨h1, ?_, ?_⟩
    · rw [List.getLast?_append, h2]; rfl
    · intro hn
      have hn2 := List.nodup_cons.mp hn
      have hfr : f ∈ rest := by
        have := (run_folder hr _ hm2).2
        simpa [Event.folder] using this
      have hg : g ≠ f := fun e => hn2.1 (e ▸ hfr)
      rw [List.countP_append, countP_eq_zero_of_folder_ne (isRemoveOf_folder f)
        hblk.folder_eq hg, h3 hn2.2]

/-! ## Sorting the folder names -/

theorem sortStrings_sorted (l : List GoString) : (sortStrings l).Sorted (· ≤ ·) :=
  List.sorted_insertionSort (· ≤ ·) l

theorem sortStrings_perm (l : List GoString) : (sortStrings l).Perm l :=
  List.perm_insertionSort (· ≤ ·) l

theorem sortStrings_nodup {l : List GoString} (h : l.Nodup) : (sortStrings l).Nodup :=
  (sortStrings_perm l).nodup_iff.mpr h

theorem takeWhile_eq_filter_of_sorted (d : GoString) (l : List GoString)
    (h : l.Sorted (· ≤ ·)) :
    l.takeWhile (fun f => decide (f < d)) = l.filter (fun f => decide (f < d)) := by
  induction l with
  | nil => rfl
  | cons a t ih =>
    have hs := List.sorted_cons.mp h
    by_cases ha : a < d
    · simp [List.takeWhile, List.filter, ha, ih hs.2]
    · have hnone : t.filter (fun f => decide (f < d)) = [] := by
        rw [List.filter_eq_nil_iff]
        intro x hx
        have : a ≤ x := hs.1 x hx
        simp only [decide_eq_true_eq, not_lt]
        exact le_trans (not_lt.mp ha) this
      simp [List.takeWhile, List.filter, ha, hnone]

theorem takeWhile_sortStrings (d : GoString) (l : List GoString) :
    (sortStrings l).takeWhile (fun f => decide (f < d)) =
      sortStrings (l.filter (fun f => decide (f < d))) := by
  rw [takeWhile_eq_filter_of_sorted d _ (sortStrings_sorted l)]
  apply List.eq_of_perm_of_sorted (r := (· ≤ ·))
  · exact ((sortStrings_perm l).filter _).trans (sortStrings_perm _).symm
  · exact (sortStrings_sorted l).filter _
  · exact sortStrings_sorted _

/-! ## The poll cycle: safety, exclusion, order -/

/-- C1: in one poll cycle, whatever the outcomes of the verification, copy and
delete steps, every call of the local delete for a folder `f` comes directly
after a call of `verifyFilesWithDestination` for the same `f` that returned
true: nothing lies between them in the trace. -/
theorem delete_only_after_verified (o : Outcomes) (folders : List GoString)
    (dayDirName f : GoString) (ok : Bool) (pre post : List Event)
    (h : (pollCycle o folders dayDirName).1 = pre ++ Event.removeAll f ok :: post) :
    ∃ pre1 afterCopy, pre = pre1 ++ [Event.verify f afterCopy (Proc.ret true)] := by
  have hw := run_wellFormed (pollCycle_run o folders dayDirName)
  obtain ⟨pre1, x, hp, ha⟩ := wellFormed_before hw h (by simp [Opens])
  obtain ⟨ac, hx⟩ := adjacent_removeAll ha
  exact ⟨pre1, ac, by rw [hp, hx]⟩

theorem delete_only_after_verified_witness :
    (pollCycle copyRepairs ["20240601".toList] "20240603".toList).1 =
        [Event.verify "20240601".toList false (Proc.ret false),
          Event.scp "20240601".toList true,
          Event.verify "20240601".toList true (Proc.ret true)] ++
        Event.removeAll "20240601".toList true :: [] ∧
      ∃ pre1 afterCopy,
        [Event.verify "20240601".toList false (Proc.ret false),
          Event.scp "20240601".toList true,
          Event.verify "20240601".toList true (Proc.ret true)] =
        pre1 ++ [Event.verify "20240601".toList afterCopy (Proc.ret true)] :=
  ⟨by decide, delete_only_after_verified copyRepairs ["20240601".toList]
    "20240603".toList "20240601".toList true _ [] (by decide)⟩

/-- C2: for every list of local folder names and every value of today's date
name, every call of a poll cycle (verification, `scp` or local delete) is
about a folder whose name is strictly below today's name: no folder at or
after today is touched. -/
theorem no_call_on_today_or_later (o : Outcomes) (folders : List GoString)
    (dayDirName : GoString) (e : Event)
    (he : e ∈ (pollCycle o folders dayDirName).1) : ¬ (e.folder ≥ dayDirName) :=
  not_le.mpr (run_folder (pollCycle_run o folders dayDirName) e he).1

theorem no_call_on_today_or_later_witness :
    (pollCycle allVerified ["20240601".toList, "20240602".toList, "20240603".toList]
        (getDirName ⟨2024, 6, 3⟩)).1 =
      [Event.verify "20240601".toList false (Proc.ret true),
        Event.removeAll "20240601".toList true,
        Event.verify "20240602".toList false (Proc.ret true),
        Event.removeAll "20240602".toList true] ∧
    ¬ ((Event.removeAll "20240602".toList true).folder ≥ getDirName ⟨2024, 6, 3⟩) :=
  ⟨by decide, no_call_on_today_or_later allVerified
    ["20240601".toList, "20240602".toList, "20240603".toList] (getDirName ⟨2024, 6, 3⟩)
    (Event.removeAll "20240602".toList true) (by decide)⟩

/-- Scenario D for arbitrary outcomes: with today `20240603` and the folders
`20240601`, `20240602`, `20240603`, every call of the cycle is about
`20240601` or `20240602`. -/
theorem scenario_D (o : Outcomes) (e : Event)
    (he : e ∈ (pollCycle o ["20240601".toList, "20240602".toList, "20240603".toList]
      (getDirName ⟨2024, 6, 3⟩)).1) :
    e.folder = "20240601".toList ∨ e.folder = "20240602".toList := by
  have h := run_folder (pollCycle_run o _ _) e he
  have hs : sortStrings ["20240601".toList, "20240602".toList, "20240603".toList] =
      ["20240601".toList, "20240602".toList, "20240603".toList] := by decide
  have hd : getDirName ⟨2024, 6, 3⟩ = "20240603".toList := by decide
  rw [hs] at h
  rw [hd] at h
  rcases List.mem_cons.mp h.2 with h1 | h1
  · exact Or.inl h1
  · rcases List.mem_cons.mp h1 with h2 | h2
    · exact Or.inr h2
    · rw [List.mem_singleton] at h2
      exact absurd h.1 (by rw [h2]; exact lt_irrefl _)

/-- C3: for every list of local folder names, in whatever order the directory
listing gives them, and every today's date name, in a poll cycle that is not
ended by a fatal error the folders on which the verification before the copy
is started are exactly the names strictly below today's name, in ascending
order: the sequence is the sorted rearrangement of the eligible names, so
the `break` at the first name at or after today skips no eligible folder, and
each name is taken once when the listing has no name twice. -/
theorem eligible_folders_in_order (o : Outcomes) (folders : List GoString)
    (dayDirName : GoString)
    (hs : (pollCycle o folders dayDirName).2 = Status.sleeping) :
    preVerified (pollCycle o folders dayDirName).1 =
        sortStrings (folders.filter (fun f => decide (f < dayDirName))) ∧
      (preVerified (pollCycle o folders dayDirName).1).Sorted (· ≤ ·) ∧
      (preVerified (pollCycle o folders dayDirName).1).Perm
        (folders.filter (fun f => decide (f < dayDirName))) ∧
      (∀ f, f ∈ preVerified (pollCycle o folders dayDirName).1 ↔
        f ∈ folders ∧ f < dayDirName) ∧
      (folders.Nodup → (preVerified (pollCycle o folders dayDirName).1).Nodup) := by
  have h := run_preVerified_sleeping (pollCycle_run o folders dayDirName) hs
  rw [takeWhile_sortStrings] at h
  rw [h]
  refine ⟨rfl, sortStrings_sorted _, sortStrings_perm _, ?_, ?_⟩
  · intro f
    rw [(sortStrings_perm _).mem_iff]
    simp
  · intro hn
    exact sortStrings_nodup (hn.filter _)

theorem eligible_folders_in_order_witness :
    (pollCycle copyRepairs ["20240103".toList, "20240101".toList, "20240102".toList]
        "20240105".toList).2 = Status.sleeping ∧
      preVerified (pollCycle copyRepairs
        ["20240103".toList, "20240101".toList, "20240102".toList] "20240105".toList).1 =
        ["20240101".toList, "20240102".toList, "20240103".toList] := by
  have h := eligible_folders_in_order copyRepairs
    ["20240103".toList, "20240101".toList, "20240102".toList] "20240105".toList (by decide)
  refine ⟨by decide, ?_⟩
  rw [h.1]
  decide

/-- Whatever the outcomes, also in a cycle cut short by a fatal error, the
folders verified so far are an initial part of the sorted eligible names: no
folder is taken out of turn. -/
theorem preVerified_initial_part (o : Outcomes) (folders : List GoString)
    (dayDirName : GoString) :
    ∃ k, preVerified (pollCycle o folders dayDirName).1 =
      (sortStrings (folders.filter (fun f => decide (f < dayDirName)))).take k := by
  obtain ⟨k, hk⟩ := run_preVerified_take (pollCycle_run o folders dayDirName)
  rw [takeWhile_sortStrings] at hk
  exact ⟨k, hk⟩

/-- The ordering scenario for arbitrary outcomes: with today `20240105` and
the folders `20240101`, `20240102`, `20240103` listed in any of these orders,
a cycle that is not cut short verifies them in exactly that order. -/
theorem scenario_ordering (o : Outcomes)
    (hs : (pollCycle o ["20240102".toList, "20240103".toList, "20240101".toList]
      "20240105".toList).2 = Status.sleeping) :
    preVerified (pollCycle o ["20240102".toList, "20240103".toList, "20240101".toList]
        "20240105".toList).1 =
      ["20240101".toList, "20240102".toList, "20240103".toList] := by
  rw [run_preVerified_sleeping (pollCycle_run o _ _) hs]
  decide

theorem listAndCopyOldDirectories_listing (o : Outcomes) (folders : List GoString)
    (now : Date) :
    listAndCopyOldDirectories o (some folders) now =
      pollCycle o folders (getDirName now) :=
  rfl

theorem listAndCopyOldDirectories_readDir_error (o : Outcomes) (now : Date) :
    listAndCopyOldDirectories o none now =
      ([], Status.terminated "unable to read root directory: ") :=
  rfl

/-! ## The poll cycle: transfer and its failure -/

/-- C8: in a poll cycle over a listing without repeated names, for every
folder `f`: `scp` is called for `f` exactly when the verification of `f`
before the copy returned false; it is called at most once, and directly after
that verification; a successful `scp` is directly followed by a further
verification of `f`, the only one after the copy; and when the verification
before the copy returned true the next call is the delete of `f` and no `scp`
is made for `f`. -/
theorem transfer_iff_unverified (o : Outcomes) (folders : List GoString)
    (dayDirName f : GoString) (tr : List Event) (hn : folders.Nodup)
    (htr : tr = (pollCycle o folders dayDirName).1) :
    ((∃ ok, Event.scp f ok ∈ tr) ↔ Event.verify f false (Proc.ret false) ∈ tr) ∧
      tr.countP (isScpOf f) ≤ 1 ∧
      (∀ pre post ok, tr = pre ++ Event.scp f ok :: post →
        ∃ pre1, pre = pre1 ++ [Event.verify f false (Proc.ret false)]) ∧
      (∀ pre post, tr = pre ++ Event.scp f true :: post →
        (∃ r post1, post = Event.verify f true r :: post1) ∧
          tr.countP (isPostVerifyOf f) = 1) ∧
      (∀ pre post, tr = pre ++ Event.verify f false (Proc.ret true) :: post →
        (∃ b post1, post = Event.removeAll f b :: post1) ∧
          tr.countP (isScpOf f) = 0) := by
  have hr := pollCycle_run o folders dayDirName
  rw [← htr] at hr
  have hw := run_wellFormed hr
  have hnd := sortStrings_nodup hn
  have hbefore : ∀ pre post ok, tr = pre ++ Event.scp f ok :: post →
      ∃ pre1, pre = pre1 ++ [Event.verify f false (Proc.ret false)] := by
    intro pre post ok ht
    obtain ⟨pre1, x, hp, ha⟩ := wellFormed_before hw ht (by simp [Opens])
    exact ⟨pre1, by rw [hp, adjacent_scp ha]⟩
  refine ⟨⟨?_, ?_⟩, ?_, hbefore, ?_, ?_⟩
  · rintro ⟨ok, hm⟩
    obtain ⟨pre, post, ht⟩ := List.append_of_mem hm
    obtain ⟨pre1, hp⟩ := hbefore pre post ok ht
    rw [ht, hp]
    simp
  · intro hm
    obtain ⟨pre, post, ht⟩ := List.append_of_mem hm
    obtain ⟨y, post1, hp, ha⟩ := wellFormed_after hw ht (by simp [Final])
    obtain ⟨ok, hy⟩ := adjacent_after_preUnverified ha
    exact ⟨ok, by rw [ht, hp, hy]; simp⟩
  · exact run_countP_le_one (isScpOf f) f (isScpOf_folder f)
      (fun g blk st hb => block_countP_scp f g blk st hb) hr hnd
  · intro pre post ht
    obtain ⟨y, post1, hp, ha⟩ := wellFormed_after hw ht (by simp [Final])
    obtain ⟨r, hy⟩ := adjacent_after_scp ha
    refine ⟨⟨r, post1, by rw [hp, hy]⟩, ?_⟩
    have hle := run_countP_le_one (isPostVerifyOf f) f (isPostVerifyOf_folder f)
      (fun g blk st hb => block_countP_postVerify f g blk st hb) hr hnd
    have hpos : 0 < tr.countP (isPostVerifyOf f) := by
      rw [List.countP_pos_iff]
      exact ⟨Event.verify f true r, by rw [ht, hp, hy]; simp, by simp [isPostVerifyOf]⟩
    omega
  · intro pre post ht
    obtain ⟨y, post1, hp, ha⟩ := wellFormed_after hw ht (by simp [Final])
    obtain ⟨b, hy⟩ := adjacent_after_preVerified ha
    refine ⟨⟨b, post1, by rw [hp, hy]⟩, ?_⟩
    exact run_preVerified_no_scp hr hnd f (by rw [ht]; simp)

theorem transfer_iff_unverified_witness :
    (["20240601".toList, "20240602".toList] : List GoString).Nodup ∧
    ([Event.verify "20240601".toList false (Proc.ret false),
        Event.scp "20240601".toList true,
        Event.verify "20240601".toList true (Proc.ret true),
        Event.removeAll "20240601".toList true,
        Event.verify "20240602".toList false (Proc.ret false),
        Event.scp "20240602".toList true,
        Event.verify "20240602".toList true (Proc.ret true),
        Event.removeAll "20240602".toList true] : List Event) =
      (pollCycle copyRepairs ["20240601".toList, "20240602".toList] "20240603".toList).1 ∧
    ([Event.verify "20240601".toList false (Proc.ret false),
        Event.scp "20240601".toList true,
        Event.verify "20240601".toList true (Proc.ret true),
        Event.removeAll "20240601".toList true,
        Event.verify "20240602".toList false (Proc.ret false),
        Event.scp "20240602".toList true,
        Event.verify "20240602".toList true (Proc.ret true),
        Event.removeAll "20240602".toList true] : List Event).countP
      (isScpOf "20240601".toList) ≤ 1 :=
  ⟨by decide, by decide,
    (transfer_iff_unverified copyRepairs ["20240601".toList, "20240602".toList]
      "20240603".toList "20240601".toList _ (by decide) (by decide)).2.1⟩

/-- C6, as the code has it: in a poll cycle over a listing without repeated
names, when the `scp` copy of a folder fails, the folder is not deleted, the
process ends in the fatal error "unable to copy folder to remote using scp",
and the failed `scp` is the last call of the cycle: no later folder is
processed. -/
theorem copy_failure_is_fatal (o : Outcomes) (folders : List GoString)
    (dayDirName f : GoString) (hn : folders.Nodup)
    (h : Event.scp f false ∈ (pollCycle o folders dayDirName).1) :
    (pollCycle o folders dayDirName).1.countP (isRemoveOf f) = 0 ∧
      (pollCycle o folders dayDirName).2 =
        Status.terminated "unable to copy folder to remote using scp: " ∧
      (pollCycle o folders dayDirName).1.getLast? = some (Event.scp f false) := by
  obtain ⟨h1, h2, h3⟩ := run_copyFailed (pollCycle_run o folders dayDirName) f h
  exact ⟨h3 (sortStrings_nodup hn), h1, h2⟩

theorem copy_failure_is_fatal_witness :
    (["20240601".toList, "20240602".toList] : List GoString).Nodup ∧
    Event.scp "20240601".toList false ∈
      (pollCycle copyFails ["20240601".toList, "20240602".toList] "20240603".toList).1 ∧
    ((pollCycle copyFails ["20240601".toList, "20240602".toList]
        "20240603".toList).1.countP (isRemoveOf "20240601".toList) = 0 ∧
      (pollCycle copyFails ["20240601".toList, "20240602".toList] "20240603".toList).2 =
        Status.terminated "unable to copy folder to remote using scp: " ∧
      (pollCycle copyFails ["20240601".toList, "20240602".toList]
        "20240603".toList).1.getLast? = some (Event.scp "20240601".toList false)) :=
  ⟨by decide, by decide,
    copy_failure_is_fatal copyFails ["20240601".toList, "20240602".toList]
      "20240603".toList "20240601".toList (by decide) (by decide)⟩

/-- C6 as stated fails: with the eligible folders `20240601` and `20240602`,
nothing on the remote host and a failing `scp`, the cycle makes two calls,
ends the process in `log.Fatal` and never reaches the eligible folder
`20240602`. -/
theorem copy_failure_continues_counterexample :
    pollCycle copyFails ["20240601".toList, "20240602".toList] "20240603".toList =
        ([Event.verify "20240601".toList false (Proc.ret false),
          Event.scp "20240601".toList false],
          Status.terminated "unable to copy folder to remote using scp: ") ∧
      (pollCycle copyFails ["20240601".toList, "20240602".toList]
        "20240603".toList).2 ≠ Status.sleeping ∧
      "20240602".toList < "20240603".toList ∧
      "20240602".toList ∉ preVerified (pollCycle copyFails
        ["20240601".toList, "20240602".toList] "20240603".toList).1 := by
  decide

/-! ## Start-up -/

/-- What `init` does: it is fatal exactly when `LOCAL_DIR` is unset or blank;
the other two settings are never looked at. -/
theorem init_fatal_iff (env : GoString → Option GoString) :
    (∃ m, init env = Proc.fatal m) ↔ trimSpace (getenv env "LOCAL_DIR".toList) = [] := by
  unfold init
  by_cases h : trimSpace (getenv env "LOCAL_DIR".toList) = []
  · simp only [h, if_true, iff_true]
    exact ⟨_, rfl⟩
  · simp only [h, if_false, iff_false, not_exists]
    intro m hm
    cases hm

/-- C7, the failing input: with `LOCAL_DIR` set and both `REMOTE_HOST` and
`REMOTE_HOST_DIR` unset, `init` returns normally with an empty remote host
and an empty remote directory, where the claim asks for a fatal error. -/
theorem init_accepts_missing_remote_settings :
    onlyLocalDir "REMOTE_HOST".toList = none ∧
      onlyLocalDir "REMOTE_HOST_DIR".toList = none ∧
      init onlyLocalDir = Proc.ret ⟨"rec".toList, [], []⟩ := by
  decide

/-! ## Folder verification -/

/-- C5, the failing input: the remote folder exists, the one local file has
no remote counterpart and `sha256sum` exits non-zero.  `runCmdOnRemote` hands
the exit error back without ending the process, but
`verifyFilesWithDestination` turns it into `log.Fatal`, and the poll cycle
ends the process. -/
theorem missing_remote_file_is_fatal :
    runCmdOnRemote sampleConfig partialRemote
        ["sha256sum".toList, "/srv/rec/20240601/10-00-00.mp3".toList] =
      Proc.ret ([], some (ExecErr.exitError 1)) ∧
    verifyFilesWithDestination sampleConfig partialRemote "20240601".toList =
      Proc.fatal "unable to run sha256 command on remote file: " ∧
    pollCycle (staticOutcomes sampleConfig partialRemote) ["20240601".toList]
        "20240603".toList =
      ([Event.verify "20240601".toList false
          (Proc.fatal "unable to run sha256 command on remote file: ")],
        Status.terminated "unable to run sha256 command on remote file: ") := by
  decide

/-- Whenever the first file of the folder, in sorted order, can be read and
its remote `sha256sum` exits non-zero, the verification ends the process. -/
theorem verifyFiles_exit_error (cfg : Config) (w : World) (folderName fName : GoString)
    (rest : List GoString) (content : List Nat) (code : Int)
    (ho : w.openFile (w.join [cfg.rootDir, folderName, fName]) = true)
    (hr : w.readAll (w.join [cfg.rootDir, folderName, fName]) = some content)
    (he : w.exec "ssh".toList [cfg.remoteHostName, "sha256sum".toList,
      w.join [cfg.remoteDirPath, folderName, fName]] =
        Except.error (ExecErr.exitError code)) :
    verifyFiles cfg w folderName (fName :: rest) =
      Proc.fatal "unable to run sha256 command on remote file: " := by
  simp only [verifyFiles, ho, hr, runCmdOnRemote, he, Bool.true_eq_false, if_false]

theorem verifyFiles_all_match (cfg : Config) (w : World) (folderName : GoString)
    (l : List GoString)
    (hloc : ∀ f ∈ l, w.openFile (w.join [cfg.rootDir, folderName, f]) = true ∧
      ∃ content, w.readAll (w.join [cfg.rootDir, folderName, f]) = some content)
    (hrem : ∀ f ∈ l, ∃ out digest,
      w.exec "ssh".toList [cfg.remoteHostName, "sha256sum".toList,
        w.join [cfg.remoteDirPath, folderName, f]] = Except.ok out ∧
      decodeRemoteDigest out = some digest) :
    ∃ b, verifyFiles cfg w folderName l = Proc.ret b ∧
      (b = true ↔ ∀ f ∈ l, ∀ content out,
        w.readAll (w.join [cfg.rootDir, folderName, f]) = some content →
        w.exec "ssh".toList [cfg.remoteHostName, "sha256sum".toList,
          w.join [cfg.remoteDirPath, folderName, f]] = Except.ok out →
        decodeRemoteDigest out = some (w.sha256 content)) := by
  induction l with
  | nil => exact ⟨true, by simp [verifyFiles]⟩
  | cons f rest ih =>
    obtain ⟨ho, content, hc⟩ := hloc f (List.mem_cons_self _ _)
    obtain ⟨out, digest, hx, hd⟩ := hrem f (List.mem_cons_self _ _)
    obtain ⟨b, hb, hiff⟩ := ih (fun g hg => hloc g (List.mem_cons_of_mem _ hg))
      (fun g hg => hrem g (List.mem_cons_of_mem _ hg))
    by_cases heq : w.sha256 content = digest
    · refine ⟨b, ?_, ?_⟩
      · simp only [verifyFiles, ho, hc, runCmdOnRemote, hx, hd, heq, hb, Bool.true_eq_false,
          if_false, if_true]
      · rw [hiff]
        constructor
        · intro h g hg c2 o2 h1 h2
          rcases List.mem_cons.mp hg with hg | hg
          · subst hg
            rw [hc] at h1
            rw [hx] at h2
            cases h1
            cases h2
            rw [hd, heq]
          · exact h g hg c2 o2 h1 h2
        · intro h g hg
          exact h g (List.mem_cons_of_mem _ hg)
    · refine ⟨false, ?_, ?_⟩
      · simp only [verifyFiles, ho, hc, runCmdOnRemote, hx, hd, heq, Bool.true_eq_false,
          if_false]
      · simp only [Bool.false_eq_true, false_iff]
        intro h
        have := h f (List.mem_cons_self _ _) content out hc hx
        rw [hd] at this
        exact heq (Option.some.inj this).symm

/-- C4: for every folder whose remote existence check could be run, whose
local files can all be read, and for whose files every remote digest command
succeeds with output that decodes as hexadecimal, `verifyFilesWithDestination`
returns a boolean, and it returns true exactly when the remote folder exists
(`ls` exited with zero) and for every local file the SHA-256 digest of the
local content equals the digest decoded from the remote output; so one
unequal digest makes it return false. -/
theorem verify_true_iff_digests_match (cfg : Config) (w : World)
    (folderName : GoString) (files : List GoString)
    (hls : w.exec "ssh".toList [cfg.remoteHostName, "ls".toList,
      w.join [cfg.remoteDirPath, folderName]] ≠ Except.error ExecErr.other)
    (hdir : w.readDir (w.join [cfg.rootDir, folderName]) = some files)
    (hloc : ∀ f ∈ files, w.openFile (w.join [cfg.rootDir, folderName, f]) = true ∧
      ∃ content, w.readAll (w.join [cfg.rootDir, folderName, f]) = some content)
    (hrem : ∀ f ∈ files, ∃ out digest,
      w.exec "ssh".toList [cfg.remoteHostName, "sha256sum".toList,
        w.join [cfg.remoteDirPath, folderName, f]] = Except.ok out ∧
      decodeRemoteDigest out = some digest) :
    ∃ b, verifyFilesWithDestination cfg w folderName = Proc.ret b ∧
      (b = true ↔
        (∃ listing, w.exec "ssh".toList [cfg.remoteHostName, "ls".toList,
          w.join [cfg.remoteDirPath, folderName]] = Except.ok listing) ∧
        ∀ f ∈ files, ∀ content out,
          w.readAll (w.join [cfg.rootDir, folderName, f]) = some content →
          w.exec "ssh".toList [cfg.remoteHostName, "sha256sum".toList,
            w.join [cfg.remoteDirPath, folderName, f]] = Except.ok out →
          decodeRemoteDigest out = some (w.sha256 content)) := by
  have hmem : ∀ f, f ∈ sortStrings files ↔ f ∈ files := fun f =>
    (sortStrings_perm files).mem_iff
  obtain ⟨b, hb, hiff⟩ := verifyFiles_all_match cfg w folderName (sortStrings files)
    (fun f hf => hloc f ((hmem f).mp hf)) (fun f hf => hrem f ((hmem f).mp hf))
  rcases hx : w.exec "ssh".toList [cfg.remoteHostName, "ls".toList,
      w.join [cfg.remoteDirPath, folderName]] with e | listing
  · cases e with
    | exitError c =>
      exact ⟨false, by simp only [verifyFilesWithDestination, hx], by simp⟩
    | pathError =>
      exact ⟨false, by simp only [verifyFilesWithDestination, hx], by simp⟩
    | other => exact absurd hx hls
  · refine ⟨b, ?_, ?_⟩
    · simp only [verifyFilesWithDestination, hx, hdir, hb]
    · rw [hiff]
      constructor
      · intro h
        exact ⟨⟨listing, rfl⟩, fun f hf => h f ((hmem f).mpr hf)⟩
      · intro h f hf
        exact h.2 f ((hmem f).mp hf)

theorem verify_true_iff_digests_match_witness :
    verifyFilesWithDestination sampleConfig syncedRemote "20240601".toList =
        Proc.ret true ∧
      ∃ b, verifyFilesWithDestination sampleConfig syncedRemote "20240601".toList =
          Proc.ret b ∧
        (b = true ↔
          (∃ listing, syncedRemote.exec "ssh".toList
            [sampleConfig.remoteHostName, "ls".toList,
              syncedRemote.join [sampleConfig.remoteDirPath, "20240601".toList]] =
              Except.ok listing) ∧
          ∀ f ∈ ["10-00-00.mp3".toList], ∀ content out,
            syncedRemote.readAll (syncedRemote.join
              [sampleConfig.rootDir, "20240601".toList, f]) = some content →
            syncedRemote.exec "ssh".toList
              [sampleConfig.remoteHostName, "sha256sum".toList,
                syncedRemote.join [sampleConfig.remoteDirPath, "20240601".toList, f]] =
              Except.ok out →
            decodeRemoteDigest out = some (syncedRemote.sha256 content)) :=
  ⟨by decide,
    verify_true_iff_digests_match sampleConfig syncedRemote "20240601".toList
      ["10-00-00.mp3".toList]
      (by intro h; cases h)
      rfl
      (fun _ _ => ⟨rfl, [1, 2, 3], rfl⟩)
      (by
        intro f hf
        rw [List.mem_singleton] at hf
        subst hf
        exact ⟨_, sampleDigest [1, 2, 3], rfl, by decide⟩)⟩

/-! ## Decoding the remote digest -/

theorem splitAux_headD (sep : Char) (s cur : GoString) :
    (splitAux sep s cur).headD [] =
      cur.reverse ++ s.takeWhile (fun c => decide (c ≠ sep)) := by
  induction s generalizing cur with
  | nil => simp [splitAux]
  | cons c cs ih =>
    by_cases h : c = sep
    · simp [splitAux, h, List.takeWhile]
    · rw [splitAux, if_neg h, ih]
      simp [List.takeWhile, h]

theorem decodeRemoteDigest_eq (out : GoString) :
    decodeRemoteDigest out =
      hexDecodeString (out.takeWhile (fun c => decide (c ≠ ' '))) := by
  unfold decodeRemoteDigest stringsSplit
  rw [splitAux_headD]
  simp

theorem fromHexChar_hexDigit : ∀ k, k < 16 → fromHexChar (hexDigit k) = some k := by
  decide

theorem hexDigit_ne_space : ∀ k, k < 16 → hexDigit k ≠ ' ' := by
  decide

theorem hexDecodeString_hexEncode (D : List Nat) (hD : ∀ b ∈ D, b < 256) :
    hexDecodeString (hexEncode D) = some D := by
  induction D with
  | nil => rfl
  | cons b bs ih =>
    have hb : b < 256 := hD b (List.mem_cons_self _ _)
    have h1 : fromHexChar (hexDigit (b / 16)) = some (b / 16) :=
      fromHexChar_hexDigit _ (by omega)
    have h2 : fromHexChar (hexDigit (b % 16)) = some (b % 16) :=
      fromHexChar_hexDigit _ (by omega)
    have h3 : b / 16 * 16 + b % 16 = b := by omega
    simp only [hexEncode, hexDecodeString, h1, h2, ih (fun x hx => hD x
      (List.mem_cons_of_mem _ hx)), h3]

theorem hexEncode_no_space (D : List Nat) (hD : ∀ b ∈ D, b < 256) :
    ∀ c ∈ hexEncode D, c ≠ ' ' := by
  induction D with
  | nil => simp [hexEncode]
  | cons b bs ih =>
    have hb : b < 256 := hD b (List.mem_cons_self _ _)
    intro c hc
    simp only [hexEncode, List.mem_cons] at hc
    rcases hc with hc | hc | hc
    · rw [hc]; exact hexDigit_ne_space _ (by omega)
    · rw [hc]; exact hexDigit_ne_space _ (by omega)
    · exact ih (fun x hx => hD x (List.mem_cons_of_mem _ hx)) c hc

theorem takeWhile_append_stop (p : Char → Bool) (xs rest : GoString) (y : Char)
    (hx : ∀ c ∈ xs, p c = true) (hy : p y = false) :
    (xs ++ y :: rest).takeWhile p = xs := by
  induction xs with
  | nil => simp [List.takeWhile, hy]
  | cons a t ih =>
    have ha : p a = true := hx a (List.mem_cons_self _ _)
    simp [List.takeWhile, ha, ih (fun c hc => hx c (List.mem_cons_of_mem _ hc))]

/-- C9, as the code has it: for every output of the remote digest command,
the digest that `verifyFilesWithDestination` decodes is the hexadecimal
decoding of the text before the first space character of the output (the
whole output when it has no space); only the space delimits, and leading
spaces are not skipped.  For any digest `D`, the output made of the
hexadecimal form of `D`, two spaces, a file path and a newline decodes to
`D`. -/
theorem decodes_text_before_first_space (out path : GoString) (D : List Nat)
    (hD : ∀ b ∈ D, b < 256) :
    decodeRemoteDigest out =
        hexDecodeString (out.takeWhile (fun c => decide (c ≠ ' '))) ∧
      decodeRemoteDigest (hexEncode D ++ "  ".toList ++ path ++ "\n".toList) = some D := by
  refine ⟨decodeRemoteDigest_eq out, ?_⟩
  rw [decodeRemoteDigest_eq]
  have : hexEncode D ++ "  ".toList ++ path ++ "\n".toList =
      hexEncode D ++ ' ' :: (' ' :: (path ++ "\n".toList)) := by
    simp
  rw [this, takeWhile_append_stop _ _ _ _ (fun c hc => by
    simpa using hexEncode_no_space D hD c hc) (by simp)]
  exact hexDecodeString_hexEncode D hD

theorem decodes_text_before_first_space_witness :
    (∀ b ∈ List.replicate 32 171, b < 256) ∧
      (decodeRemoteDigest "e3b0  rec/a.mp3\n".toList =
          hexDecodeString ("e3b0  rec/a.mp3\n".toList.takeWhile
            (fun c => decide (c ≠ ' '))) ∧
        decodeRemoteDigest (hexEncode (List.replicate 32 171) ++ "  ".toList ++
          "rec/a.mp3".toList ++ "\n".toList) = some (List.replicate 32 171)) :=
  ⟨by decide, decodes_text_before_first_space "e3b0  rec/a.mp3\n".toList
    "rec/a.mp3".toList (List.replicate 32 171) (by decide)⟩

/-- C9 as stated fails: on the output `ab` followed by a newline the first
white-space-delimited token is `ab`, which decodes to one byte, but the code
takes the whole text up to the first space, newline included, and cannot
decode it; on a space followed by `ab` the code decodes the empty text before
the space, not the token `ab`. -/
theorem first_token_counterexample :
    hexDecodeString (firstWhitespaceToken "ab\n".toList) = some [171] ∧
      decodeRemoteDigest "ab\n".toList = none ∧
      hexDecodeString (firstWhitespaceToken " ab".toList) = some [171] ∧
      decodeRemoteDigest " ab".toList = some [] := by
  decide

/-! ## Directory names -/

theorem toDigitsCore_acc (fuel n : Nat) (ds : List Char) :
    Nat.toDigitsCore 10 fuel n ds = Nat.toDigitsCore 10 fuel n [] ++ ds := by
  induction fuel generalizing n ds with
  | zero => simp [Nat.toDigitsCore]
  | succ k ih =>
    simp only [Nat.toDigitsCore]
    split
    · simp
    · rw [ih (n / 10) (_ :: ds), ih (n / 10) [_]]
      simp

theorem fixedDigits_zero (w : Nat) : fixedDigits w 0 = List.replicate w '0' := by
  induction w with
  | zero => rfl
  | succ w ih =>
    simp only [fixedDigits, Nat.zero_div, ih, Nat.zero_mod]
    rw [List.replicate_succ']
    rfl

theorem toDigitsCore_fixed (w : Nat) : ∀ fuel n, n < 10 ^ (w + 1) → n < fuel →
    ∃ k, (Nat.toDigitsCore 10 fuel n []).length + k = w + 1 ∧
      List.replicate k '0' ++ Nat.toDigitsCore 10 fuel n [] = fixedDigits (w + 1) n := by
  induction w with
  | zero =>
    intro fuel n hn hf
    obtain ⟨f, rfl⟩ : ∃ f, fuel = f + 1 := ⟨fuel - 1, by omega⟩
    have h0 : n / 10 = 0 := by omega
    exact ⟨0, by simp [Nat.toDigitsCore, h0], by simp [Nat.toDigitsCore, h0, fixedDigits]⟩
  | succ w ih =>
    intro fuel n hn hf
    obtain ⟨f, rfl⟩ : ∃ f, fuel = f + 1 := ⟨fuel - 1, by omega⟩
    by_cases h0 : n / 10 = 0
    · refine ⟨w + 1, by simp [Nat.toDigitsCore, h0]; omega, ?_⟩
      simp only [Nat.toDigitsCore, h0, if_true]
      rw [fixedDigits, h0, fixedDigits_zero]
    · have hn2 : n / 10 < 10 ^ (w + 1) := by
        rw [Nat.div_lt_iff_lt_mul (by norm_num)]
        rw [pow_succ] at hn
        exact hn
      have hf2 : n / 10 < f := by omega
      obtain ⟨k, hk1, hk2⟩ := ih f (n / 10) hn2 hf2
      refine ⟨k, ?_, ?_⟩
      · simp only [Nat.toDigitsCore, h0, if_false]
        rw [toDigitsCore_acc]
        simp only [List.length_append, List.length_singleton]
        omega
      · simp only [Nat.toDigitsCore, h0, if_false]
        rw [toDigitsCore_acc, ← List.append_assoc, hk2]
        rfl

theorem padZeros_toDigits (w n : Nat) (hn : n < 10 ^ (w + 1)) :
    padZeros (w + 1) (Nat.toDigits 10 n) = fixedDigits (w + 1) n := by
  obtain ⟨k, hk1, hk2⟩ := toDigitsCore_fixed w (n + 1) n hn (Nat.lt_succ_self n)
  unfold padZeros Nat.toDigits
  have : w + 1 - (Nat.toDigitsCore 10 (n + 1) n []).length = k := by omega
  rw [this, hk2]

theorem sprintfZeroPad_eq (w : Nat) (y : Int) (h0 : 0 ≤ y) (h1 : y < 10 ^ (w + 1)) :
    sprintfZeroPad (w + 1) y = fixedDigits (w + 1) y.toNat := by
  unfold sprintfZeroPad
  rw [if_neg (not_lt.mpr h0)]
  apply padZeros_toDigits
  have : (y.toNat : Int) = y := Int.toNat_of_nonneg h0
  zify
  rw [this]
  exact_mod_cast h1

theorem fixedDigits_length (w n : Nat) : (fixedDigits w n).length = w := by
  induction w generalizing n with
  | zero => rfl
  | succ w ih => simp [fixedDigits, ih]

theorem digitChar_isDigit : ∀ k, k < 10 → (Nat.digitChar k).isDigit = true := by decide

theorem fixedDigits_isDigit (w n : Nat) : ∀ c ∈ fixedDigits w n, c.isDigit = true := by
  induction w generalizing n with
  | zero => simp [fixedDigits]
  | succ w ih =>
    intro c hc
    simp only [fixedDigits, List.mem_append, List.mem_singleton] at hc
    rcases hc with hc | hc
    · exact ih _ c hc
    · rw [hc]; exact digitChar_isDigit _ (Nat.mod_lt _ (by norm_num))

theorem fixedDigits_append (w1 w2 a b : Nat) (hb : b < 10 ^ w2) :
    fixedDigits (w1 + w2) (a * 10 ^ w2 + b) = fixedDigits w1 a ++ fixedDigits w2 b := by
  induction w2 generalizing b with
  | zero =>
    have : b = 0 := by simpa using hb
    simp [this, fixedDigits]
  | succ w2 ih =>
    have h3 : a * 10 ^ (w2 + 1) = 10 * (a * 10 ^ w2) := by ring
    have h1 : (a * 10 ^ (w2 + 1) + b) / 10 = a * 10 ^ w2 + b / 10 := by
      rw [h3]; omega
    have h2 : (a * 10 ^ (w2 + 1) + b) % 10 = b % 10 := by
      rw [h3]; omega
    have hb2 : b / 10 < 10 ^ w2 := by
      rw [Nat.div_lt_iff_lt_mul (by norm_num)]
      rw [pow_succ] at hb
      exact hb
    rw [← Nat.add_assoc, fixedDigits, h1, h2, ih _ hb2, fixedDigits, List.append_assoc]

theorem cons_lt_cons_iff (a b : Char) (x y : List Char) :
    a :: x < b :: y ↔ a < b ∨ (a = b ∧ x < y) := by
  constructor
  · intro h
    cases h with
    | cons h => exact Or.inr ⟨rfl, h⟩
    | rel h => exact Or.inl h
  · rintro (h | ⟨rfl, h⟩)
    · exact List.Lex.rel h
    · exact List.Lex.cons h

theorem lt_append_of_length_eq (xs ys u v : List Char) (hl : xs.length = ys.length) :
    xs ++ u < ys ++ v ↔ xs < ys ∨ (xs = ys ∧ u < v) := by
  induction xs generalizing ys with
  | nil =>
    cases ys with
    | nil => simp
    | cons b ys => simp at hl
  | cons a xs ih =>
    cases ys with
    | nil => simp at hl
    | cons b ys =>
      have hl2 : xs.length = ys.length := by simpa using hl
      rw [List.cons_append, List.cons_append, cons_lt_cons_iff, cons_lt_cons_iff, ih ys hl2]
      constructor
      · rintro (h | ⟨rfl, h | ⟨rfl, h⟩⟩)
        · exact Or.inl (Or.inl h)
        · exact Or.inl (Or.inr ⟨rfl, h⟩)
        · exact Or.inr ⟨rfl, h⟩
      · rintro ((h | ⟨rfl, h⟩) | ⟨h1, h2⟩)
        · exact Or.inl h
        · exact Or.inr ⟨rfl, Or.inl h⟩
        · cases h1
          exact Or.inr ⟨rfl, Or.inr ⟨rfl, h2⟩⟩

theorem digitChar_lt : ∀ a, a < 10 → ∀ b, b < 10 →
    (Nat.digitChar a < Nat.digitChar b ↔ a < b) := by
  decide

theorem fixedDigits_lt_iff (w : Nat) : ∀ a b, a < 10 ^ w → b < 10 ^ w →
    (fixedDigits w a < fixedDigits w b ↔ a < b) := by
  induction w with
  | zero =>
    intro a b ha hb
    have ha0 : a = 0 := by simpa using ha
    have hb0 : b = 0 := by simpa using hb
    simp [ha0, hb0, fixedDigits]
  | succ w ih =>
    intro a b ha hb
    have ha2 : a / 10 < 10 ^ w := by
      rw [Nat.div_lt_iff_lt_mul (by norm_num)]; rw [pow_succ] at ha; exact ha
    have hb2 : b / 10 < 10 ^ w := by
      rw [Nat.div_lt_iff_lt_mul (by norm_num)]; rw [pow_succ] at hb; exact hb
    have hinj : fixedDigits w (a / 10) = fixedDigits w (b / 10) ↔ a / 10 = b / 10 := by
      constructor
      · intro h
        rcases Nat.lt_trichotomy (a / 10) (b / 10) with h1 | h1 | h1
        · have := (ih _ _ ha2 hb2).mpr h1
          rw [h] at this
          exact absurd this (lt_irrefl _)
        · exact h1
        · have := (ih _ _ hb2 ha2).mpr h1
          rw [h] at this
          exact absurd this (lt_irrefl _)
      · intro h
        rw [h]
    have hlast : [Nat.digitChar (a % 10)] < [Nat.digitChar (b % 10)] ↔ a % 10 < b % 10 := by
      rw [cons_lt_cons_iff, digitChar_lt _ (Nat.mod_lt _ (by norm_num)) _
        (Nat.mod_lt _ (by norm_num))]
      simp
    rw [fixedDigits, fixedDigits, lt_append_of_length_eq _ _ _ _
      (by rw [fixedDigits_length, fixedDigits_length]), ih _ _ ha2 hb2, hinj, hlast]
    omega

theorem daysIn_le (y : Int) (m : Nat) : 28 ≤ daysIn y m ∧ daysIn y m ≤ 31 := by
  unfold daysIn
  split
  · split <;> omega
  · split <;> omega

theorem getDirName_fields (d : Date) (hv : d.Valid) (h0 : 0 ≤ d.year) (h1 : d.year ≤ 9999) :
    getDirName d = fixedDigits 4 d.year.toNat ++ fixedDigits 2 d.month ++ fixedDigits 2 d.day := by
  obtain ⟨hm1, hm2, hd1, hd2⟩ := hv
  have hd3 := (daysIn_le d.year d.month).2
  unfold getDirName
  rw [sprintfZeroPad_eq 3 d.year h0 (by norm_num; omega),
    sprintfZeroPad_eq 1 (d.month : Int) (by omega) (by norm_num; omega),
    sprintfZeroPad_eq 1 (d.day : Int) (by omega) (by norm_num; omega)]
  simp

theorem getDirName_eq_fixedDigits (d : Date) (hv : d.Valid) (h0 : 0 ≤ d.year)
    (h1 : d.year ≤ 9999) : getDirName d = fixedDigits 8 d.ordinal8 := by
  rw [getDirName_fields d hv h0 h1]
  obtain ⟨hm1, hm2, hd1, hd2⟩ := hv
  have hd3 := (daysIn_le d.year d.month).2
  unfold Date.ordinal8
  have e1 := fixedDigits_append 4 4 d.year.toNat (d.month * 100 + d.day) (by norm_num; omega)
  have e2 := fixedDigits_append 2 2 d.month d.day (by norm_num; omega)
  norm_num at e1 e2
  rw [e1, e2, List.append_assoc]

theorem getDirName_lt_iff (a b : Date) (ha : a.Valid) (ha0 : 0 ≤ a.year) (ha1 : a.year ≤ 9999)
    (hb : b.Valid) (hb0 : 0 ≤ b.year) (hb1 : b.year ≤ 9999) :
    a.fieldsBefore b ↔ getDirName a < getDirName b := by
  rw [getDirName_eq_fixedDigits a ha ha0 ha1, getDirName_eq_fixedDigits b hb hb0 hb1]
  obtain ⟨hm1, hm2, hd1, hd2⟩ := ha
  obtain ⟨hm3, hm4, hd4, hd5⟩ := hb
  have hd3 := (daysIn_le a.year a.month).2
  have hd6 := (daysIn_le b.year b.month).2
  rw [fixedDigits_lt_iff 8 _ _ (by unfold Date.ordinal8; norm_num; omega)
    (by unfold Date.ordinal8; norm_num; omega)]
  unfold Date.fieldsBefore Date.ordinal8
  omega

theorem nextDay_valid (d : Date) (hv : d.Valid) : d.nextDay.Valid := by
  obtain ⟨hm1, hm2, hd1, hd2⟩ := hv
  unfold Date.nextDay
  split
  · exact ⟨hm1, hm2, by simp, by simpa using ‹_›⟩
  · split
    · have := (daysIn_le d.year (d.month + 1)).1
      exact ⟨by simp, by simp; omega, le_refl _, by simp; omega⟩
    · have := (daysIn_le (d.year + 1) 1).1
      exact ⟨le_refl _, by simp, le_refl _, by simp; omega⟩

theorem fieldsBefore_nextDay (d : Date) : d.fieldsBefore d.nextDay := by
  unfold Date.nextDay Date.fieldsBefore
  split
  · simp
  · split <;> simp

theorem fieldsBefore_trans {a b c : Date} (h1 : a.fieldsBefore b)
    (h2 : b.fieldsBefore c) : a.fieldsBefore c := by
  unfold Date.fieldsBefore at *
  omega

theorem year_le_nextDay (d : Date) : d.year ≤ d.nextDay.year := by
  unfold Date.nextDay
  split
  · simp
  · split <;> simp


theorem isLeap_iff (y : Int) : isLeap y = true ↔ y % 4 = 0 ∧ (y % 100 ≠ 0 ∨ y % 400 = 0) := by
  simp [isLeap]

theorem leapsBefore_succ (y : Int) :
    leapsBefore (y + 1) = leapsBefore y + (if isLeap y then 1 else 0) := by
  unfold leapsBefore
  by_cases h : isLeap y = true
  · rw [if_pos h]
    rw [isLeap_iff] at h
    omega
  · rw [if_neg h]
    rw [isLeap_iff] at h
    omega

theorem daysBeforeMonth_13 (y : Int) :
    (daysBeforeMonth y 13 : Int) = 365 + (if isLeap y then 1 else 0) := by
  by_cases h : isLeap y = true <;> simp [daysBeforeMonth, daysIn, h]

theorem daysBeforeMonth_mono (y : Int) (m n : Nat) (h : m ≤ n) :
    daysBeforeMonth y m ≤ daysBeforeMonth y n := by
  induction n with
  | zero =>
    have : m = 0 := by omega
    rw [this]
  | succ n ih =>
    rcases Nat.eq_or_lt_of_le h with h1 | h1
    · rw [h1]
    · have h2 := ih (by omega)
      cases n with
      | zero => have : m = 0 := by omega
                rw [this]; simp [daysBeforeMonth]
      | succ k =>
        simp only [daysBeforeMonth]
        omega

theorem daysBeforeMonth_succ (y : Int) (m : Nat) (h : 1 ≤ m) :
    daysBeforeMonth y (m + 1) = daysBeforeMonth y m + daysIn y m := by
  obtain ⟨k, rfl⟩ : ∃ k, m = k + 1 := ⟨m - 1, by omega⟩
  rfl

theorem dayNumber_nextDay (d : Date) (hv : d.Valid) :
    d.nextDay.dayNumber = d.dayNumber + 1 := by
  obtain ⟨hm1, hm2, hd1, hd2⟩ := hv
  unfold Date.nextDay
  split
  · simp only [Date.dayNumber]
    push_cast
    ring
  · rename_i h1
    have hday : d.day = daysIn d.year d.month := by omega
    split
    · simp only [Date.dayNumber]
      rw [daysBeforeMonth_succ _ _ hm1, hday]
      push_cast
      ring
    · rename_i h2
      have hm : d.month = 12 := by omega
      simp only [Date.dayNumber]
      rw [leapsBefore_succ, hday, hm]
      have h13 := daysBeforeMonth_13 d.year
      rw [daysBeforeMonth_succ _ 12 (by norm_num)] at h13
      have h0 : daysBeforeMonth (d.year + 1) 1 = 0 := rfl
      rw [h0]
      push_cast at h13 ⊢
      by_cases hl : isLeap d.year = true
      · simp only [hl, if_true] at h13 ⊢
        omega
      · simp only [hl, if_false] at h13 ⊢
        omega

theorem year_start_mono (a b : Int) (h : a ≤ b) :
    365 * a + leapsBefore a ≤ 365 * b + leapsBefore b := by
  unfold leapsBefore
  omega

theorem dayNumber_lt_of_fieldsBefore (a b : Date) (ha : a.Valid) (hb : b.Valid)
    (h : a.fieldsBefore b) : a.dayNumber < b.dayNumber := by
  obtain ⟨hm1, hm2, hd1, hd2⟩ := ha
  obtain ⟨hm3, hm4, hd3, hd4⟩ := hb
  unfold Date.dayNumber
  rcases h with h | ⟨hy, h | ⟨hm, hd⟩⟩
  · have e1 := year_start_mono (a.year + 1) b.year (by omega)
    rw [leapsBefore_succ] at e1
    have e2 := daysBeforeMonth_13 a.year
    have e3 := daysBeforeMonth_mono a.year (a.month + 1) 13 (by omega)
    rw [daysBeforeMonth_succ _ _ hm1] at e3
    by_cases hl : isLeap a.year = true
    · simp only [hl, if_true] at e1 e2
      omega
    · simp only [hl, if_false] at e1 e2
      omega
  · have e3 := daysBeforeMonth_mono a.year (a.month + 1) b.month (by omega)
    rw [daysBeforeMonth_succ _ _ hm1] at e3
    rw [← hy]
    omega
  · rw [← hy, ← hm]
    omega

theorem earlier_iff_fieldsBefore (a b : Date) (ha : a.Valid) (hb : b.Valid) :
    a.earlier b ↔ a.fieldsBefore b := by
  unfold Date.earlier
  refine Iff.symm ?_
  constructor
  · exact dayNumber_lt_of_fieldsBefore a b ha hb
  · intro h
    by_contra hne
    have hcases : b.fieldsBefore a ∨ (a.year = b.year ∧ a.month = b.month ∧ a.day = b.day) := by
      unfold Date.fieldsBefore at hne ⊢
      omega
    rcases hcases with h1 | ⟨h1, h2, h3⟩
    · have := dayNumber_lt_of_fieldsBefore b a hb ha h1
      omega
    · unfold Date.dayNumber at h
      rw [h1, h2, h3] at h
      omega

theorem year_le_addDate (d : Date) (n : Nat) : d.year ≤ (d.addDate n).year := by
  induction n generalizing d with
  | zero => exact le_refl _
  | succ n ih => exact le_trans (year_le_nextDay d) (ih d.nextDay)

/-- C10: for every calendar date with a year from 0 to 9999, `getDirName`
returns exactly eight decimal digits, the year in four zero-padded digits, the
month in two and the day in two; for two such dates, the first is
chronologically earlier than the second exactly when its name is
lexicographically below the other name; so, while the year stays within
9999, the name of today is strictly below the names of tomorrow and of the day
after, the three names that `createNewDirForUpcomingDays` creates. -/
theorem getDirName_sortable (d1 d2 : Date) (hv1 : d1.Valid)
    (hy1 : 0 ≤ d1.year ∧ d1.year ≤ 9999) (hv2 : d2.Valid)
    (hy2 : 0 ≤ d2.year ∧ d2.year ≤ 9999) :
    ((getDirName d1).length = 8 ∧ (∀ c ∈ getDirName d1, c.isDigit = true) ∧
        getDirName d1 =
          fixedDigits 4 d1.year.toNat ++ fixedDigits 2 d1.month ++ fixedDigits 2 d1.day) ∧
      (d1.earlier d2 ↔ getDirName d1 < getDirName d2) ∧
      ((d1.addDate 2).year ≤ 9999 →
        (upcomingDirNames d1).1 < (upcomingDirNames d1).2.1 ∧
        (upcomingDirNames d1).1 < (upcomingDirNames d1).2.2 ∧
        (upcomingDirNames d1).2.1 < (upcomingDirNames d1).2.2) := by
  refine ⟨⟨?_, ?_, getDirName_fields d1 hv1 hy1.1 hy1.2⟩,
    (earlier_iff_fieldsBefore d1 d2 hv1 hv2).trans
      (getDirName_lt_iff d1 d2 hv1 hy1.1 hy1.2 hv2 hy2.1 hy2.2), ?_⟩
  · rw [getDirName_eq_fixedDigits d1 hv1 hy1.1 hy1.2, fixedDigits_length]
  · rw [getDirName_eq_fixedDigits d1 hv1 hy1.1 hy1.2]
    exact fixedDigits_isDigit 8 _
  · intro hy
    have hva := nextDay_valid d1 hv1
    have hvb := nextDay_valid _ hva
    have h2 : (d1.nextDay.nextDay).year ≤ 9999 := hy
    have h1 : d1.nextDay.year ≤ 9999 := le_trans (year_le_nextDay _) h2
    have g1 : 0 ≤ d1.nextDay.year := le_trans hy1.1 (year_le_nextDay _)
    have g2 : 0 ≤ d1.nextDay.nextDay.year := le_trans g1 (year_le_nextDay _)
    have e1 := fieldsBefore_nextDay d1
    have e2 := fieldsBefore_nextDay d1.nextDay
    refine ⟨?_, ?_, ?_⟩
    · exact (getDirName_lt_iff d1 d1.nextDay hv1 hy1.1 hy1.2 hva g1 h1).mp e1
    · exact (getDirName_lt_iff d1 d1.nextDay.nextDay hv1 hy1.1 hy1.2 hvb g2 h2).mp
        (fieldsBefore_trans e1 e2)
    · exact (getDirName_lt_iff d1.nextDay d1.nextDay.nextDay hva g1 h1 hvb g2 h2).mp e2

theorem getDirName_sortable_witness :
    (Date.mk 2024 2 28).Valid ∧ (0 ≤ (Date.mk 2024 2 28).year ∧
        (Date.mk 2024 2 28).year ≤ 9999) ∧
      (Date.mk 2024 3 1).Valid ∧ (0 ≤ (Date.mk 2024 3 1).year ∧
        (Date.mk 2024 3 1).year ≤ 9999) ∧
      getDirName ⟨2024, 2, 28⟩ = "20240228".toList ∧
      upcomingDirNames ⟨2024, 2, 28⟩ =
        ("20240228".toList, "20240229".toList, "20240301".toList) ∧
      ((Date.mk 2024 2 28).earlier ⟨2024, 3, 1⟩ ↔
        getDirName ⟨2024, 2, 28⟩ < getDirName ⟨2024, 3, 1⟩) :=
  ⟨by decide, by decide, by decide, by decide, by decide, by decide,
    (getDirName_sortable ⟨2024, 2, 28⟩ ⟨2024, 3, 1⟩ (by decide) (by decide) (by decide)
      (by decide)).2.1⟩

/-- Beyond the year 9999 the names stop being sortable: the day after
31 December 9999 gets a name of nine characters that sorts below the name of
the day before. -/
theorem getDirName_year_10000 :
    (Date.mk 9999 12 31).nextDay = ⟨10000, 1, 1⟩ ∧
      getDirName ⟨10000, 1, 1⟩ = "100000101".toList ∧
      getDirName ⟨10000, 1, 1⟩ < getDirName ⟨9999, 12, 31⟩ := by
  decide

end GoListen
